import Mathlib

/-!
Shallow embedding of the `goik-ga` motor / vector core (packages `pga` and the
hexapod example's Jacobian helpers) over exact real arithmetic, together with
proofs settling the specification's claims about it.

Source files embedded: `pga/point.go`, `pga/motor.go`, and the Jacobian helper
functions `RevoluteColumn` / `PrismaticColumn`.
-/

namespace pga

noncomputable section

/-- `Vec3` from `pga/point.go`: a simple 3D vector for points/directions. -/
structure Vec3 where
  X : ℝ
  Y : ℝ
  Z : ℝ

/-- `V(x, y, z)` constructor from `pga/point.go`. -/
def V (x y z : ℝ) : Vec3 := ⟨x, y, z⟩

/-- `Vec3.Add` from `pga/point.go`. -/
def Vec3.Add (a b : Vec3) : Vec3 := ⟨a.X + b.X, a.Y + b.Y, a.Z + b.Z⟩

/-- `Vec3.Sub` from `pga/point.go`. -/
def Vec3.Sub (a b : Vec3) : Vec3 := ⟨a.X - b.X, a.Y - b.Y, a.Z - b.Z⟩

/-- `Vec3.Scale` from `pga/point.go`. -/
def Vec3.Scale (a : Vec3) (s : ℝ) : Vec3 := ⟨s * a.X, s * a.Y, s * a.Z⟩

/-- `Vec3.Dot` from `pga/point.go`. -/
def Vec3.Dot (a b : Vec3) : ℝ := a.X * b.X + a.Y * b.Y + a.Z * b.Z

/-- `Vec3.Cross` from `pga/point.go` (right-handed). -/
def Vec3.Cross (a b : Vec3) : Vec3 :=
  ⟨a.Y * b.Z - a.Z * b.Y, a.Z * b.X - a.X * b.Z, a.X * b.Y - a.Y * b.X⟩

/-- `Vec3.Norm` from `pga/point.go`: Euclidean length. -/
def Vec3.Norm (a : Vec3) : ℝ := Real.sqrt (a.Dot a)

/-- `Vec3.Normalized` from `pga/point.go`: returns `a` unchanged when its norm is 0. -/
def Vec3.Normalized (a : Vec3) : Vec3 :=
  if a.Norm = 0 then a else a.Scale (1 / a.Norm)

/-- `Vec3.Neg` from `pga/point.go`. -/
def Vec3.Neg (a : Vec3) : Vec3 := ⟨-a.X, -a.Y, -a.Z⟩

/-- `quat` from `pga/motor.go`: quaternion `w + xi + yj + zk`. -/
structure quat where
  w : ℝ
  x : ℝ
  y : ℝ
  z : ℝ

/-- `q(w, x, y, z)` constructor from `pga/motor.go`. -/
def q (w x y z : ℝ) : quat := ⟨w, x, y, z⟩

/-- `quat.Mul` from `pga/motor.go`: Hamilton product. -/
def quat.Mul (a b : quat) : quat :=
  ⟨a.w * b.w - a.x * b.x - a.y * b.y - a.z * b.z,
   a.w * b.x + a.x * b.w + a.y * b.z - a.z * b.y,
   a.w * b.y - a.x * b.z + a.y * b.w + a.z * b.x,
   a.w * b.z + a.x * b.y - a.y * b.x + a.z * b.w⟩

/-- `quat.Conj` from `pga/motor.go`. -/
def quat.Conj (a : quat) : quat := ⟨a.w, -a.x, -a.y, -a.z⟩

/-- `quat.Norm` from `pga/motor.go`. -/
def quat.Norm (a : quat) : ℝ :=
  Real.sqrt (a.w * a.w + a.x * a.x + a.y * a.y + a.z * a.z)

/-- `quat.Normalize` from `pga/motor.go`: defaults to the identity quaternion at norm 0. -/
def quat.Normalize (a : quat) : quat :=
  if a.Norm = 0 then q 1 0 0 0
  else q (a.w / a.Norm) (a.x / a.Norm) (a.y / a.Norm) (a.z / a.Norm)

/-- `pure(v)` from `pga/motor.go`: embeds a vector as a zero-scalar quaternion. -/
def pure (v : Vec3) : quat := ⟨0, v.X, v.Y, v.Z⟩

/-- `Motor` from `pga/motor.go`: a dual quaternion `r + ε d`. -/
structure Motor where
  r : quat
  d : quat

/-- `Identity()` from `pga/motor.go`. -/
def Identity : Motor := ⟨q 1 0 0 0, q 0 0 0 0⟩

/-- `FromAxisAngle` from `pga/motor.go`: pure rotation about (normalized) `u` by `theta`. -/
def FromAxisAngle (u : Vec3) (theta : ℝ) : Motor :=
  let uhat := u.Normalized
  let half := 0.5 * theta
  let s := Real.sin half
  ⟨q (Real.cos half) (uhat.X * s) (uhat.Y * s) (uhat.Z * s), q 0 0 0 0⟩

/-- `Translator` from `pga/motor.go`: pure translation by `t`, `d = 0.5 * pure(t)`. -/
def Translator (t : Vec3) : Motor :=
  ⟨q 1 0 0 0, q 0 (0.5 * t.X) (0.5 * t.Y) (0.5 * t.Z)⟩

/-- `Motor.Mul` from `pga/motor.go`:
`(r1 + ε d1)(r2 + ε d2) = r1 r2 + ε(r1 d2 + d1 r2)`. -/
def Motor.Mul (a b : Motor) : Motor :=
  let r := a.r.Mul b.r
  let d0 := a.r.Mul b.d
  let d : quat :=
    ⟨d0.w + (a.d.Mul b.r).w, d0.x + (a.d.Mul b.r).x,
     d0.y + (a.d.Mul b.r).y, d0.z + (a.d.Mul b.r).z⟩
  ⟨r, d⟩

/-- `Screw` from `pga/motor.go`: rotation about the line through `p` with direction `u`,
with angle `theta` and pitch, built as `T(p) * R * T(-p) * Tpitch`. -/
def Screw (p u : Vec3) (theta pitch : ℝ) : Motor :=
  let uhat := u.Normalized
  let R := FromAxisAngle uhat theta
  let Tpitch := Translator (uhat.Scale (pitch * theta))
  let Tp := Translator p
  let Tm := Translator p.Neg
  ((Tp.Mul R).Mul Tm).Mul Tpitch

/-- `Motor.Inv` from `pga/motor.go`: for unit `r`, inverse is `r* + ε(- r* d r*)`. -/
def Motor.Inv (a : Motor) : Motor :=
  let rc := a.r.Conj
  let dr := (rc.Mul a.d).Mul rc
  ⟨rc, q (-dr.w) (-dr.x) (-dr.y) (-dr.z)⟩

/-- `Motor.ActPoint` from `pga/motor.go`: rotate by the `r` sandwich, then translate by
`2 * vector part of (d * conj r)`. -/
def Motor.ActPoint (a : Motor) (p : Vec3) : Vec3 :=
  let rp := (a.r.Mul (pure p)).Mul a.r.Conj
  let rot : Vec3 := ⟨rp.x, rp.y, rp.z⟩
  let tr := a.d.Mul a.r.Conj
  let t : Vec3 := ⟨2 * tr.x, 2 * tr.y, 2 * tr.z⟩
  rot.Add t

/-- `Motor.ActDir` from `pga/motor.go`: rotation only, no translation. -/
def Motor.ActDir (a : Motor) (v : Vec3) : Vec3 :=
  let rp := (a.r.Mul (pure v)).Mul a.r.Conj
  ⟨rp.x, rp.y, rp.z⟩

/-- `RevoluteColumn` from the Jacobian helpers: `normalize(axisDir) × (toe - axisPoint)`. -/
def RevoluteColumn (axisPoint axisDir toe : Vec3) : Vec3 :=
  let u := axisDir.Normalized
  let r := toe.Sub axisPoint
  u.Cross r

/-- `PrismaticColumn` from the Jacobian helpers: `normalize(axisDir)`. -/
def PrismaticColumn (axisDir : Vec3) : Vec3 := axisDir.Normalized

/-! ### Helper notions and lemmas (not source code; used only inside proofs) -/

/-- Squared quaternion norm, the radicand of `quat.Norm`. -/
def quat.normSq (a : quat) : ℝ := a.w * a.w + a.x * a.x + a.y * a.y + a.z * a.z

lemma quat.normSq_nonneg (a : quat) : 0 ≤ a.normSq := by
  unfold quat.normSq; nlinarith [sq_nonneg a.w, sq_nonneg a.x, sq_nonneg a.y, sq_nonneg a.z]

lemma quat.norm_eq_one_iff (a : quat) : a.Norm = 1 ↔ a.normSq = 1 := by
  unfold quat.Norm quat.normSq
  exact Real.sqrt_eq_one

/-- Euler's four-square identity in the embedding: squared norm is multiplicative. -/
lemma quat.normSq_mul (a b : quat) : (a.Mul b).normSq = a.normSq * b.normSq := by
  unfold quat.Mul quat.normSq
  ring

lemma Vec3.dot_self_nonneg (a : Vec3) : 0 ≤ a.Dot a := by
  unfold Vec3.Dot; nlinarith [sq_nonneg a.X, sq_nonneg a.Y, sq_nonneg a.Z]

lemma Vec3.dot_self_eq_zero_iff (a : Vec3) : a.Dot a = 0 ↔ a = V 0 0 0 := by
  unfold Vec3.Dot V
  constructor
  · intro h
    have hX : a.X = 0 := by nlinarith [sq_nonneg a.X, sq_nonneg a.Y, sq_nonneg a.Z]
    have hY : a.Y = 0 := by nlinarith [sq_nonneg a.X, sq_nonneg a.Y, sq_nonneg a.Z]
    have hZ : a.Z = 0 := by nlinarith [sq_nonneg a.X, sq_nonneg a.Y, sq_nonneg a.Z]
    cases a
    simp_all
  · intro h
    rw [h]
    ring

lemma Vec3.norm_eq_zero_iff (a : Vec3) : a.Norm = 0 ↔ a = V 0 0 0 := by
  unfold Vec3.Norm
  rw [Real.sqrt_eq_zero (Vec3.dot_self_nonneg a)]
  exact Vec3.dot_self_eq_zero_iff a

/-- For a nonzero vector, `Normalized` produces a vector of unit squared length. -/
lemma Vec3.dot_normalized (a : Vec3) (h : a ≠ V 0 0 0) :
    (a.Normalized).Dot (a.Normalized) = 1 := by
  have hn : a.Norm ≠ 0 := fun h0 => h ((Vec3.norm_eq_zero_iff a).mp h0)
  have hd : a.Norm * a.Norm = a.Dot a := by
    unfold Vec3.Norm
    exact Real.mul_self_sqrt (Vec3.dot_self_nonneg a)
  unfold Vec3.Normalized
  rw [if_neg hn]
  unfold Vec3.Scale Vec3.Dot
  unfold Vec3.Dot at hd
  field_simp
  linarith [hd]

lemma Vec3.normalized_zero : (Vec3.mk 0 0 0).Normalized = Vec3.mk 0 0 0 := by
  unfold Vec3.Normalized
  rw [if_pos ((Vec3.norm_eq_zero_iff (Vec3.mk 0 0 0)).mpr rfl)]

lemma Vec3.normalized_ne_zero (a : Vec3) (h : a ≠ V 0 0 0) :
    a.Normalized ≠ V 0 0 0 := by
  intro h0
  have h1 := Vec3.dot_normalized a h
  rw [h0] at h1
  unfold Vec3.Dot V at h1
  norm_num at h1

/-- Right-multiplying by the translator of a zero-scaled vector changes nothing;
this is `Screw`'s `Tpitch` factor at pitch 0. -/
lemma Motor.mul_translator_scale_zero (m : Motor) (v : Vec3) (t : ℝ) :
    m.Mul (Translator (v.Scale (0 * t))) = m := by
  obtain ⟨⟨rw', rx, ry, rz⟩, ⟨dw, dx, dy, dz⟩⟩ := m
  unfold Motor.Mul Translator quat.Mul q Vec3.Scale
  simp only [Motor.mk.injEq, quat.mk.injEq]
  refine ⟨⟨by ring, by ring, by ring, by ring⟩, by ring, by ring, by ring, by ring⟩

/-- Conjugating a rotation-only motor by the translators to and from `p` maps `p`
to `p` scaled by the squared norm of the rotation quaternion. -/
lemma Motor.conj_act_self (p : Vec3) (R : Motor) (hd : R.d = q 0 0 0 0) :
    (((Translator p).Mul R).Mul (Translator p.Neg)).ActPoint p = p.Scale R.r.normSq := by
  obtain ⟨⟨rw', rx, ry, rz⟩, ⟨dw, dx, dy, dz⟩⟩ := R
  obtain ⟨pX, pY, pZ⟩ := p
  unfold q at hd
  simp only [quat.mk.injEq] at hd
  obtain ⟨h1, h2, h3, h4⟩ := hd
  subst h1 h2 h3 h4
  unfold Motor.Mul Motor.ActPoint Translator quat.Mul quat.Conj pure q
    Vec3.Add Vec3.Neg Vec3.Scale quat.normSq
  simp only [Vec3.mk.injEq]
  refine ⟨by ring, by ring, by ring⟩

end

/-! ### Claim theorems -/

/-- C7: for every motor `m`, `Identity().Mul(m)` equals `m` and `m.Mul(Identity())`
equals `m` componentwise: the identity motor is a two-sided neutral element. -/
theorem C7_identity_laws (m : Motor) :
    Identity.Mul m = m ∧ m.Mul Identity = m := by
  obtain ⟨⟨rw', rx, ry, rz⟩, ⟨dw, dx, dy, dz⟩⟩ := m
  constructor <;>
    · unfold Identity Motor.Mul quat.Mul q
      simp only [Motor.mk.injEq, quat.mk.injEq]
      refine ⟨⟨by ring, by ring, by ring, by ring⟩, by ring, by ring, by ring, by ring⟩

/-- C10: for every translation vector `t` and point `p`, `Translator(t).ActPoint(p)`
equals `p.Add(t)` exactly: the 0.5 factor in the translator's dual part is exactly
undone by the factor 2 in `ActPoint`'s translation decoding. -/
theorem C10_translator_exact (t p : Vec3) :
    (Translator t).ActPoint p = p.Add t := by
  unfold Translator Motor.ActPoint quat.Mul quat.Conj pure q Vec3.Add
  simp only [Vec3.mk.injEq]
  refine ⟨by ring, by ring, by ring⟩

/-- C8: `Normalized` on the zero vector returns the zero vector unchanged (no error),
and consequently `RevoluteColumn(axisPoint, 0, toe)` is the zero vector for every
`axisPoint` and `toe`. -/
theorem C8_zero_axis_normalized :
    (V 0 0 0).Normalized = V 0 0 0 ∧
      ∀ axisPoint toe : Vec3, RevoluteColumn axisPoint (V 0 0 0) toe = V 0 0 0 := by
  refine ⟨Vec3.normalized_zero, fun axisPoint toe => ?_⟩
  unfold RevoluteColumn
  simp only [V]
  rw [Vec3.normalized_zero]
  unfold Vec3.Cross Vec3.Sub
  simp only [Vec3.mk.injEq]
  norm_num

/-- C2: for motors `a`, `b` with unit-norm rotation quaternions, the rotation
quaternion of `a.Mul(b)` has unit norm exactly, with no renormalization step. -/
theorem C2_mul_preserves_unit_norm (a b : Motor)
    (ha : a.r.Norm = 1) (hb : b.r.Norm = 1) : ((a.Mul b).r).Norm = 1 := by
  rw [quat.norm_eq_one_iff] at ha hb ⊢
  have hr : (a.Mul b).r = a.r.Mul b.r := rfl
  rw [hr, quat.normSq_mul, ha, hb]
  ring

/-- Witness for C2 at the identity motor. -/
theorem C2_mul_preserves_unit_norm_witness :
    Identity.r.Norm = 1 ∧ ((Identity.Mul Identity).r).Norm = 1 := by
  have h : Identity.r.Norm = 1 := by
    unfold Identity quat.Norm q
    norm_num [Real.sqrt_one]
  exact ⟨h, C2_mul_preserves_unit_norm Identity Identity h h⟩

/-- C9: `PrismaticColumn(axis)` has unit norm for every nonzero `axis`, and
`RevoluteColumn(c, u, toe)` is orthogonal to `toe - c` for every unit vector `u`. -/
theorem C9_jacobian_sanity :
    (∀ axis : Vec3, axis ≠ V 0 0 0 → (PrismaticColumn axis).Norm = 1) ∧
      (∀ c u toe : Vec3, u.Norm = 1 →
        (RevoluteColumn c u toe).Dot (toe.Sub c) = 0) := by
  constructor
  · intro axis h
    unfold PrismaticColumn Vec3.Norm
    rw [Vec3.dot_normalized axis h, Real.sqrt_one]
  · intro c u toe _
    unfold RevoluteColumn Vec3.Cross Vec3.Sub Vec3.Dot
    ring

/-- Witness for C9 at axis (1,0,0) and the unit axis (0,0,1) with concrete points. -/
theorem C9_jacobian_sanity_witness :
    ((V 1 0 0 ≠ V 0 0 0) ∧ (PrismaticColumn (V 1 0 0)).Norm = 1) ∧
      ((V 0 0 1).Norm = 1 ∧
        (RevoluteColumn (V 0 0 0) (V 0 0 1) (V 1 2 3)).Dot
          ((V 1 2 3).Sub (V 0 0 0)) = 0) := by
  have h1 : (V 1 0 0 : Vec3) ≠ V 0 0 0 := by
    intro h
    have hX := congrArg Vec3.X h
    norm_num [V] at hX
  have h2 : (V 0 0 1).Norm = 1 := by
    unfold Vec3.Norm Vec3.Dot V
    norm_num [Real.sqrt_one]
  exact ⟨⟨h1, C9_jacobian_sanity.1 _ h1⟩, ⟨h2, C9_jacobian_sanity.2 _ _ _ h2⟩⟩

/-- C3: for a motor `m` with unit-norm rotation quaternion, `m.Mul(m.Inv())` is
exactly `Identity()`, and `m.Inv().ActPoint(m.ActPoint(p))` returns every point `p`. -/
theorem C3_inverse_law (m : Motor) (p : Vec3) (h : m.r.Norm = 1) :
    m.Mul m.Inv = Identity ∧ (m.Inv).ActPoint (m.ActPoint p) = p := by
  rw [quat.norm_eq_one_iff] at h
  obtain ⟨⟨rw', rx, ry, rz⟩, ⟨dw, dx, dy, dz⟩⟩ := m
  obtain ⟨pX, pY, pZ⟩ := p
  unfold quat.normSq at h
  simp only at h
  constructor
  · unfold Motor.Mul Motor.Inv Identity quat.Mul quat.Conj q
    simp only [Motor.mk.injEq, quat.mk.injEq]
    refine ⟨⟨by linear_combination h, by ring, by ring, by ring⟩, ?_, ?_, ?_, ?_⟩
    · linear_combination (-(dw * rw' + dx * rx + dy * ry + dz * rz)) * h
    · linear_combination (dw * rx - dx * rw' + dy * rz - dz * ry) * h
    · linear_combination (dw * ry - dx * rz - dy * rw' + dz * rx) * h
    · linear_combination (dw * rz + dx * ry - dy * rx - dz * rw') * h
  · unfold Motor.Inv Motor.ActPoint quat.Mul quat.Conj pure q Vec3.Add
    simp only [Vec3.mk.injEq]
    refine ⟨?_, ?_, ?_⟩
    · linear_combination (pX * (rw' * rw' + rx * rx + ry * ry + rz * rz + 1)) * h
    · linear_combination (pY * (rw' * rw' + rx * rx + ry * ry + rz * rz + 1)) * h
    · linear_combination (pZ * (rw' * rw' + rx * rx + ry * ry + rz * rz + 1)) * h

/-- Witness for C3 at the identity motor and the point (1,2,3). -/
theorem C3_inverse_law_witness :
    Identity.r.Norm = 1 ∧
      (Identity.Mul Identity.Inv = Identity ∧
        (Identity.Inv).ActPoint (Identity.ActPoint (V 1 2 3)) = V 1 2 3) := by
  have h : Identity.r.Norm = 1 := by
    unfold Identity quat.Norm q
    norm_num [Real.sqrt_one]
  exact ⟨h, C3_inverse_law Identity (V 1 2 3) h⟩

/-- C4: a motor with unit-norm rotation quaternion acts rigidly on points:
`Norm(m.ActPoint(p) - m.ActPoint(q))` equals `Norm(p - q)` exactly. -/
theorem C4_rigidity (m : Motor) (p pb : Vec3) (h : m.r.Norm = 1) :
    ((m.ActPoint p).Sub (m.ActPoint pb)).Norm = (p.Sub pb).Norm := by
  rw [quat.norm_eq_one_iff] at h
  obtain ⟨⟨rw', rx, ry, rz⟩, ⟨dw, dx, dy, dz⟩⟩ := m
  obtain ⟨pX, pY, pZ⟩ := p
  obtain ⟨qX, qY, qZ⟩ := pb
  unfold quat.normSq at h
  simp only at h
  have key :
      ((Motor.ActPoint ⟨⟨rw', rx, ry, rz⟩, ⟨dw, dx, dy, dz⟩⟩ ⟨pX, pY, pZ⟩).Sub
          (Motor.ActPoint ⟨⟨rw', rx, ry, rz⟩, ⟨dw, dx, dy, dz⟩⟩ ⟨qX, qY, qZ⟩)).Dot
        ((Motor.ActPoint ⟨⟨rw', rx, ry, rz⟩, ⟨dw, dx, dy, dz⟩⟩ ⟨pX, pY, pZ⟩).Sub
          (Motor.ActPoint ⟨⟨rw', rx, ry, rz⟩, ⟨dw, dx, dy, dz⟩⟩ ⟨qX, qY, qZ⟩)) =
        (Vec3.Sub ⟨pX, pY, pZ⟩ ⟨qX, qY, qZ⟩).Dot (Vec3.Sub ⟨pX, pY, pZ⟩ ⟨qX, qY, qZ⟩) := by
    unfold Motor.ActPoint quat.Mul quat.Conj pure Vec3.Add Vec3.Sub Vec3.Dot
    simp only
    linear_combination
      ((rw' * rw' + rx * rx + ry * ry + rz * rz + 1) *
        ((pX - qX) * (pX - qX) + (pY - qY) * (pY - qY) + (pZ - qZ) * (pZ - qZ))) * h
  unfold Vec3.Norm
  rw [key]

/-- Witness for C4 at the identity motor and the points (1,0,0), (0,0,0). -/
theorem C4_rigidity_witness :
    Identity.r.Norm = 1 ∧
      ((Identity.ActPoint (V 1 0 0)).Sub (Identity.ActPoint (V 0 0 0))).Norm =
        ((V 1 0 0).Sub (V 0 0 0)).Norm := by
  have h : Identity.r.Norm = 1 := by
    unfold Identity quat.Norm q
    norm_num [Real.sqrt_one]
  exact ⟨h, C4_rigidity Identity (V 1 0 0) (V 0 0 0) h⟩

/-- C1 counterexample: with `a` the 180-degree rotation about z (a unit-norm motor)
and `b` the translation by (1,0,0), `(a.Mul b).ActPoint 0 = (-1,0,0)` while
`b.ActPoint (a.ActPoint 0) = (1,0,0)`: `Mul` does not apply `a`'s motion first. -/
theorem C1_counterexample :
    ¬ ((Motor.mk (q 0 0 0 1) (q 0 0 0 0)).Mul (Translator (V 1 0 0))).ActPoint (V 0 0 0) =
        (Translator (V 1 0 0)).ActPoint
          ((Motor.mk (q 0 0 0 1) (q 0 0 0 0)).ActPoint (V 0 0 0)) := by
  intro hEq
  have hX := congrArg Vec3.X hEq
  unfold Motor.Mul Motor.ActPoint Translator quat.Mul quat.Conj pure q V Vec3.Add at hX
  simp only at hX
  norm_num at hX

/-- C1 amended: for motors `a`, `b` with `b`'s rotation quaternion unit-norm,
`(a.Mul b).ActPoint p = a.ActPoint (b.ActPoint p)`: composition applies `b`'s
motion first and then `a`'s (right-to-left on points). -/
theorem C1_mul_actPoint (a b : Motor) (p : Vec3) (hb : b.r.Norm = 1) :
    (a.Mul b).ActPoint p = a.ActPoint (b.ActPoint p) := by
  rw [quat.norm_eq_one_iff] at hb
  obtain ⟨⟨aw, ax, ay, az⟩, ⟨adw, adx, ady, adz⟩⟩ := a
  obtain ⟨⟨bw, bx, byy, bz⟩, ⟨bdw, bdx, bdy, bdz⟩⟩ := b
  obtain ⟨pX, pY, pZ⟩ := p
  unfold quat.normSq at hb
  simp only at hb
  unfold Motor.Mul Motor.ActPoint quat.Mul quat.Conj pure Vec3.Add
  simp only [Vec3.mk.injEq]
  refine ⟨?_, ?_, ?_⟩
  · linear_combination (2 * (-adw * ax + adx * aw - ady * az + adz * ay)) * hb
  · linear_combination (2 * (-adw * ay + adx * az + ady * aw - adz * ax)) * hb
  · linear_combination (2 * (-adw * az - adx * ay + ady * ax + adz * aw)) * hb

/-- Witness for C1's amended theorem with a translator and the identity motor. -/
theorem C1_mul_actPoint_witness :
    Identity.r.Norm = 1 ∧
      ((Translator (V 1 0 0)).Mul Identity).ActPoint (V 0 0 0) =
        (Translator (V 1 0 0)).ActPoint (Identity.ActPoint (V 0 0 0)) := by
  have h : Identity.r.Norm = 1 := by
    unfold Identity quat.Norm q
    norm_num [Real.sqrt_one]
  exact ⟨h, C1_mul_actPoint (Translator (V 1 0 0)) Identity (V 0 0 0) h⟩

/-- C5 counterexample: with the zero axis and angles pi, pi, the composite's
rotation scalar is `cos(pi/2)^2 = 0` but `FromAxisAngle(0, 2*pi)` has rotation
scalar `cos(pi) = -1`: angle addition fails for a degenerate (zero) axis. -/
theorem C5_counterexample :
    ¬ ((FromAxisAngle (V 0 0 0) Real.pi).Mul (FromAxisAngle (V 0 0 0) Real.pi) =
        FromAxisAngle (V 0 0 0) (Real.pi + Real.pi)) := by
  intro hEq
  have hw := congrArg (fun m => m.r.w) hEq
  have h1 : (0.5 : ℝ) * Real.pi = Real.pi / 2 := by ring
  have h2 : (0.5 : ℝ) * (Real.pi + Real.pi) = Real.pi := by ring
  simp only [FromAxisAngle, Motor.Mul, quat.Mul, q, Vec3.normalized_zero, V, h1, h2,
    Real.cos_pi_div_two, Real.cos_pi] at hw
  norm_num at hw

/-- C5 amended: for every nonzero axis `u`, rotation angles about `u` add:
`FromAxisAngle(u, t1).Mul(FromAxisAngle(u, t2)) = FromAxisAngle(u, t1 + t2)`. -/
theorem C5_axis_angle_add (u : Vec3) (t1 t2 : ℝ) (hu : u ≠ V 0 0 0) :
    (FromAxisAngle u t1).Mul (FromAxisAngle u t2) = FromAxisAngle u (t1 + t2) := by
  have hxyz : (u.Normalized).X * (u.Normalized).X + (u.Normalized).Y * (u.Normalized).Y +
      (u.Normalized).Z * (u.Normalized).Z = 1 := Vec3.dot_normalized u hu
  have h1 : (0.5 : ℝ) * (t1 + t2) = 0.5 * t1 + 0.5 * t2 := by ring
  unfold FromAxisAngle Motor.Mul quat.Mul q
  simp only [Motor.mk.injEq, quat.mk.injEq]
  rw [h1, Real.cos_add, Real.sin_add]
  refine ⟨⟨?_, by ring, by ring, by ring⟩, by ring, by ring, by ring, by ring⟩
  linear_combination (-(Real.sin (0.5 * t1) * Real.sin (0.5 * t2))) * hxyz

/-- Witness for C5's amended theorem at the unit axis (0,0,1) and zero angles. -/
theorem C5_axis_angle_add_witness :
    (V 0 0 1 ≠ V 0 0 0) ∧
      (FromAxisAngle (V 0 0 1) 0).Mul (FromAxisAngle (V 0 0 1) 0) =
        FromAxisAngle (V 0 0 1) (0 + 0) := by
  have h : (V 0 0 1 : Vec3) ≠ V 0 0 0 := by
    intro hEq
    have hZ := congrArg Vec3.Z hEq
    norm_num [V] at hZ
  exact ⟨h, C5_axis_angle_add (V 0 0 1) 0 0 h⟩

/-- C6 counterexample: with the zero axis, `Screw((1,0,0), 0, pi, 0)` maps (1,0,0)
to `cos(pi/2)^2 * (1,0,0) = (0,0,0)`, not back to (1,0,0): the fixed-point property
fails for a degenerate (zero) axis. -/
theorem C6_counterexample :
    ¬ ((Screw (V 1 0 0) (V 0 0 0) Real.pi 0).ActPoint (V 1 0 0) = V 1 0 0) := by
  intro hEq
  have hS : Screw (V 1 0 0) (V 0 0 0) Real.pi 0 =
      ((Translator (V 1 0 0)).Mul (FromAxisAngle ((V 0 0 0).Normalized) Real.pi)).Mul
        (Translator (V 1 0 0).Neg) := by
    unfold Screw
    exact Motor.mul_translator_scale_zero _ _ _
  rw [hS,
    Motor.conj_act_self (V 1 0 0) (FromAxisAngle ((V 0 0 0).Normalized) Real.pi) rfl] at hEq
  have hzero : (FromAxisAngle ((V 0 0 0).Normalized) Real.pi).r.normSq = 0 := by
    have h1 : (0.5 : ℝ) * Real.pi = Real.pi / 2 := by ring
    simp only [FromAxisAngle, quat.normSq, q, V, Vec3.normalized_zero, h1,
      Real.cos_pi_div_two]
    norm_num
  rw [hzero] at hEq
  have hX := congrArg Vec3.X hEq
  unfold Vec3.Scale V at hX
  norm_num at hX

/-- C6 amended: for every point `p`, every NONZERO axis `u`, and every angle, the
zero-pitch screw about the line through `p` fixes `p`:
`Screw(p, u, theta, 0).ActPoint(p) = p`. -/
theorem C6_screw_fixed_point (p u : Vec3) (t : ℝ) (hu : u ≠ V 0 0 0) :
    (Screw p u t 0).ActPoint p = p := by
  have hn1 : u.Normalized ≠ V 0 0 0 := Vec3.normalized_ne_zero u hu
  have hdot := Vec3.dot_normalized (u.Normalized) hn1
  have hS : Screw p u t 0 =
      ((Translator p).Mul (FromAxisAngle (u.Normalized) t)).Mul (Translator p.Neg) := by
    unfold Screw
    exact Motor.mul_translator_scale_zero _ _ _
  rw [hS, Motor.conj_act_self p (FromAxisAngle (u.Normalized) t) rfl]
  have hone : (FromAxisAngle (u.Normalized) t).r.normSq = 1 := by
    have hsc := Real.sin_sq_add_cos_sq (0.5 * t)
    unfold Vec3.Dot at hdot
    unfold FromAxisAngle quat.normSq q
    simp only
    linear_combination (Real.sin (0.5 * t) * Real.sin (0.5 * t)) * hdot + hsc
  rw [hone]
  obtain ⟨pX, pY, pZ⟩ := p
  unfold Vec3.Scale
  simp

/-- Witness for C6's amended theorem at the point (1,2,3), axis (0,0,1), angle 0. -/
theorem C6_screw_fixed_point_witness :
    (V 0 0 1 ≠ V 0 0 0) ∧
      (Screw (V 1 2 3) (V 0 0 1) 0 0).ActPoint (V 1 2 3) = V 1 2 3 := by
  have h : (V 0 0 1 : Vec3) ≠ V 0 0 0 := by
    intro hEq
    have hZ := congrArg Vec3.Z hEq
    norm_num [V] at hZ
  exact ⟨h, C6_screw_fixed_point (V 1 2 3) (V 0 0 1) 0 h⟩

end pga
